import Mathlib

/-!
Verification development for the google-cloud-firestore watch/listen
subsystem and the `AsyncQuery` class.

`watch.py` in the excerpt is a thin wrapper re-exporting the protocol
machinery (`BaseWatch`, `WatchDocTree`, `ChangeType`, `document_watch_comparator`,
`_should_recover`, `_should_terminate`) from `base_watch.py`, which is not part
of the excerpt.  Those components are therefore modelled from the
specification's data model (spec sections 3, 4.1, 4.2, 4.3) and marked
`Modelled from the spec:` below.  `async_query.py` is present in full and the
`AsyncQuery` definitions are translated directly from it.
-/

namespace Firestore

/-- Modelled from the spec: a `DocumentSnapshot` has identity `path` (unique
within a watch), opaque field `data`, and an update timestamp.  (The concrete
class lives outside the excerpt.) -/
structure DocumentSnapshot where
  path : String
  data : Nat
  updateTime : Nat
deriving DecidableEq

/-! ### Generic association-list helpers (strings as keys) -/

/-- Lookup of the first binding of key `x` in an association list. -/
def alookup {α : Type} (l : List (String × α)) (x : String) : Option α :=
  (l.find? (fun e => e.1 == x)).map Prod.snd

/-- Keys of an association list are duplicate-free. -/
def keysNodup {α : Type} (l : List (String × α)) : Prop :=
  (l.map Prod.fst).Nodup

instance {α : Type} (l : List (String × α)) : Decidable (keysNodup l) := by
  unfold keysNodup
  infer_instance

theorem alookup_nil {α : Type} (x : String) : alookup ([] : List (String × α)) x = none := rfl

theorem alookup_cons {α : Type} (a : String × α) (l : List (String × α)) (x : String) :
    alookup (a :: l) x = if a.1 = x then some a.2 else alookup l x := by
  unfold alookup
  by_cases h : a.1 = x
  · rw [List.find?_cons_of_pos _ (by simp [h])]
    simp [h]
  · rw [List.find?_cons_of_neg _ (by simp [h])]
    simp [h]

theorem alookup_filter_ne {α : Type} (l : List (String × α)) (q x : String) :
    alookup (l.filter (fun e => e.1 != q)) x = if x = q then none else alookup l x := by
  induction l with
  | nil => simp [alookup_nil]
  | cons a l ih =>
    by_cases hq : a.1 = q
    · rw [List.filter_cons_of_neg (by simp [hq])]
      rw [ih, alookup_cons]
      by_cases hx : x = q
      · simp [hx]
      · have : a.1 ≠ x := by
          intro h
          exact hx (by rw [← h, hq])
        simp [hx, this]
    · rw [List.filter_cons_of_pos (by simp [hq])]
      rw [alookup_cons, ih, alookup_cons]
      by_cases ha : a.1 = x
      · have hx : x ≠ q := by
          intro h
          exact hq (by rw [ha, h])
        simp [ha, hx]
      · simp [ha]

theorem alookup_eq_none_of_not_mem_keys {α : Type} (l : List (String × α)) (x : String)
    (h : x ∉ l.map Prod.fst) : alookup l x = none := by
  induction l with
  | nil => rfl
  | cons a l ih =>
    rw [alookup_cons]
    simp only [List.map_cons, List.mem_cons] at h
    push_neg at h
    simp [Ne.symm h.1, ih h.2]

theorem keysNodup_filter {α : Type} (l : List (String × α)) (pr : String × α → Bool)
    (h : keysNodup l) : keysNodup (l.filter pr) := by
  unfold keysNodup at h ⊢
  exact List.Nodup.sublist (List.Sublist.map Prod.fst (List.filter_sublist l)) h

theorem keysNodup_record_cons {α : Type} (l : List (String × α)) (p : String) (v : α)
    (h : keysNodup l) : keysNodup ((p, v) :: l.filter (fun e => e.1 != p)) := by
  unfold keysNodup
  rw [List.map_cons, List.nodup_cons]
  constructor
  · intro hmem
    rcases List.mem_map.mp hmem with ⟨e, he, hfst⟩
    rcases List.mem_filter.mp he with ⟨_, hne⟩
    simp only [bne_iff_ne, ne_eq, decide_eq_true_eq] at hne
    exact hne hfst
  · exact keysNodup_filter l _ h

/-! ### Ordered Document Tree -/

/-- Modelled from the spec: the Ordered Document Tree (`WatchDocTree` in
`base_watch.py`, outside the excerpt) is an ordered, duplicate-free container
of snapshots keyed by document path.  It is represented here as an association
list keyed by path; per spec section 4.2 `ordered_sequence()` is recomputed
fresh on each call from the injected comparator, so ordering lives in
`ordered_sequence`, not in the stored entries. -/
structure WatchDocTree where
  entries : List (String × DocumentSnapshot)
deriving DecidableEq

/-- The empty tree, the state of a fresh watch. -/
def WatchDocTree.empty : WatchDocTree := WatchDocTree.mk []

/-- Lookup of a snapshot by document path. -/
def WatchDocTree.find (t : WatchDocTree) (p : String) : Option DocumentSnapshot :=
  alookup t.entries p

/-- Membership test by document path (spec section 4.2 `contains(path)`). -/
def WatchDocTree.contains (t : WatchDocTree) (p : String) : Bool :=
  (t.find p).isSome

/-- Removal by document path (spec section 4.2 `remove(path)`). -/
def WatchDocTree.remove (t : WatchDocTree) (p : String) : WatchDocTree :=
  WatchDocTree.mk (t.entries.filter (fun e => e.1 != p))

/-- Insert or replace a snapshot at its path (spec section 4.2
`insert_or_replace(snapshot)`). -/
def WatchDocTree.insert_or_replace (t : WatchDocTree) (s : DocumentSnapshot) : WatchDocTree :=
  WatchDocTree.mk ((s.path, s) :: (t.remove s.path).entries)

/-- At most one entry per document path (spec section 3 invariant). -/
def WatchDocTree.keysNodup (t : WatchDocTree) : Prop :=
  Firestore.keysNodup t.entries

instance (t : WatchDocTree) : Decidable t.keysNodup := by
  unfold WatchDocTree.keysNodup
  infer_instance

/-- Spec section 4.2: `ordered_sequence()` produces the documents in comparator
order, recomputed fresh on each call.  The injected comparator is a boolean
less-or-equal test over snapshots. -/
def WatchDocTree.ordered_sequence (t : WatchDocTree)
    (le : DocumentSnapshot → DocumentSnapshot → Bool) : List DocumentSnapshot :=
  (t.entries.map Prod.snd).mergeSort le

theorem WatchDocTree.find_remove (t : WatchDocTree) (q x : String) :
    (t.remove q).find x = if x = q then none else t.find x := by
  unfold WatchDocTree.remove WatchDocTree.find
  exact alookup_filter_ne t.entries q x

theorem WatchDocTree.find_insert (t : WatchDocTree) (s : DocumentSnapshot) (x : String) :
    (t.insert_or_replace s).find x = if x = s.path then some s else t.find x := by
  have h1 : (t.insert_or_replace s).find x
      = if s.path = x then some s else (t.remove s.path).find x :=
    alookup_cons (s.path, s) (t.remove s.path).entries x
  rw [h1, WatchDocTree.find_remove]
  by_cases h : x = s.path
  · simp [h]
  · have h' : ¬s.path = x := fun hh => h hh.symm
    simp [h, h']

theorem WatchDocTree.keysNodup_remove (t : WatchDocTree) (q : String)
    (h : t.keysNodup) : (t.remove q).keysNodup := by
  unfold WatchDocTree.keysNodup WatchDocTree.remove
  exact keysNodup_filter t.entries _ h

theorem WatchDocTree.keysNodup_insert (t : WatchDocTree) (s : DocumentSnapshot)
    (h : t.keysNodup) : (t.insert_or_replace s).keysNodup := by
  unfold WatchDocTree.keysNodup WatchDocTree.insert_or_replace WatchDocTree.remove
  exact keysNodup_record_cons t.entries s.path s h

/-! ### Change Accumulator -/

/-- Modelled from the spec: an accumulator entry is either `updated-with(snapshot)`
or `deleted` (spec section 3, Change Accumulator). -/
inductive DocState where
  | updated (snap : DocumentSnapshot)
  | deleted
deriving DecidableEq

/-- The Change Accumulator: document path mapped to its latest pending change. -/
abbrev ChangeMap := List (String × DocState)

/-- Record a change for `p`, replacing any previously recorded change
(the accumulator keeps only the latest pending change per path). -/
def record (m : ChangeMap) (p : String) (st : DocState) : ChangeMap :=
  (p, st) :: m.filter (fun e => e.1 != p)

/-- Latest recorded state for a path, if any. -/
def lookupCM (m : ChangeMap) (p : String) : Option DocState :=
  alookup m p

/-- A well-formed accumulator entry: an `updated` entry stores a snapshot whose
path is the entry's key (the state machine only records a snapshot under its
own path). -/
def entryWF : String × DocState → Bool
  | (p, DocState.updated s) => s.path == p
  | (_, DocState.deleted) => true

/-- Every entry of the accumulator is well-formed. -/
def ChangeMapWF (m : ChangeMap) : Prop := ∀ e ∈ m, entryWF e = true

instance (m : ChangeMap) : Decidable (ChangeMapWF m) := by
  unfold ChangeMapWF
  infer_instance

theorem lookupCM_record (m : ChangeMap) (p : String) (st : DocState) (x : String) :
    lookupCM (record m p st) x = if x = p then some st else lookupCM m x := by
  unfold lookupCM record
  rw [alookup_cons]
  by_cases h : x = p
  · simp [h]
  · have h' : ¬p = x := fun hh => h hh.symm
    rw [alookup_filter_ne]
    simp [h, h']

theorem keysNodup_record (m : ChangeMap) (p : String) (st : DocState)
    (h : keysNodup m) : keysNodup (record m p st) :=
  keysNodup_record_cons m p st h

theorem ChangeMapWF_record (m : ChangeMap) (p : String) (st : DocState)
    (hm : ChangeMapWF m) (hst : entryWF (p, st) = true) : ChangeMapWF (record m p st) := by
  intro e he
  rcases List.mem_cons.mp he with h | h
  · rw [h]; exact hst
  · exact hm e (List.mem_of_mem_filter h)

/-! ### Change classification and the commit algorithm -/

/-- Modelled from the spec: a change is one of ADDED, MODIFIED, REMOVED
(`ChangeType` in `base_watch.py`, outside the excerpt). -/
inductive ChangeType where
  | ADDED
  | MODIFIED
  | REMOVED
deriving DecidableEq

/-- Modelled from the spec: a `DocumentChange` carries the change type and the
affected document path (spec section 3; positional indices are omitted as no
claim mentions them). -/
structure DocumentChange where
  type : ChangeType
  path : String
deriving DecidableEq

/-- Modelled from the spec, commit algorithm (section 4.1): apply one
accumulator entry to the Tree.  A `deleted` entry removes the path (no-op if
absent, recording REMOVED only when it was present); an `updated` entry
inserts/replaces the snapshot, recording ADDED when the path was absent and
MODIFIED when present with changed contents (no record when unchanged). -/
def applyChange (t : WatchDocTree) (p : String) (st : DocState) :
    WatchDocTree × Option DocumentChange :=
  match st with
  | DocState.deleted =>
    if t.contains p then (t.remove p, some (DocumentChange.mk ChangeType.REMOVED p))
    else (t, none)
  | DocState.updated snap =>
    match t.find p with
    | none => (t.insert_or_replace snap, some (DocumentChange.mk ChangeType.ADDED p))
    | some old =>
      if old = snap then (t.insert_or_replace snap, none)
      else (t.insert_or_replace snap, some (DocumentChange.mk ChangeType.MODIFIED p))

/-- Modelled from the spec, commit algorithm (section 4.1): fold every
accumulator entry into the Tree, collecting the change list. -/
def commitChanges (t : WatchDocTree) : ChangeMap → WatchDocTree × List DocumentChange
  | [] => (t, [])
  | (p, st) :: rest =>
    let r := applyChange t p st
    let r' := commitChanges r.1 rest
    (r'.1, match r.2 with
           | some c => c :: r'.2
           | none => r'.2)

/-- The result of applying one well-formed accumulator entry, looked up at any
path: the entry's own path now reflects the entry, all other paths are
untouched. -/
theorem applyChange_find (t : WatchDocTree) (p : String) (st : DocState)
    (hwf : entryWF (p, st) = true) (x : String) :
    (applyChange t p st).1.find x =
      if x = p then
        (match st with
         | DocState.updated s => some s
         | DocState.deleted => none)
      else t.find x := by
  match st with
  | DocState.deleted =>
    unfold applyChange
    match hf : t.find p with
    | none =>
      have hc : t.contains p = false := by
        unfold WatchDocTree.contains
        rw [hf]
        rfl
      rw [hc]
      simp only [Bool.false_eq_true, if_false]
      by_cases hx : x = p
      · subst hx
        simp [hf]
      · simp [hx]
    | some v =>
      have hc : t.contains p = true := by
        unfold WatchDocTree.contains
        rw [hf]
        rfl
      rw [hc]
      simp only [if_true]
      rw [WatchDocTree.find_remove]
  | DocState.updated s =>
    have hpath : s.path = p := by
      unfold entryWF at hwf
      exact of_decide_eq_true hwf
    unfold applyChange
    match hf : t.find p with
    | none =>
      rw [WatchDocTree.find_insert, hpath]
    | some old =>
      by_cases he : old = s
      · simp only [he, if_true]
        rw [WatchDocTree.find_insert, hpath]
      · simp only [he, if_false]
        rw [WatchDocTree.find_insert, hpath]

theorem lookupCM_cons (p : String) (st : DocState) (rest : ChangeMap) (x : String) :
    lookupCM ((p, st) :: rest) x = if p = x then some st else lookupCM rest x :=
  alookup_cons (p, st) rest x

theorem applyChange_keysNodup (t : WatchDocTree) (p : String) (st : DocState)
    (h : t.keysNodup) : (applyChange t p st).1.keysNodup := by
  match st with
  | DocState.deleted =>
    unfold applyChange
    by_cases hc : t.contains p = true
    · simp only [hc, if_true]
      exact t.keysNodup_remove p h
    · simp only [Bool.not_eq_true] at hc
      simp only [hc, Bool.false_eq_true, if_false]
      exact h
  | DocState.updated s =>
    unfold applyChange
    match t.find p with
    | none => exact t.keysNodup_insert s h
    | some old =>
      by_cases he : old = s
      · simp only [he, if_true]
        exact t.keysNodup_insert s h
      · simp only [he, if_false]
        exact t.keysNodup_insert s h

theorem applyChange_path (t : WatchDocTree) (p : String) (st : DocState)
    (c : DocumentChange) (h : (applyChange t p st).2 = some c) : c.path = p := by
  match st with
  | DocState.deleted =>
    unfold applyChange at h
    by_cases hc : t.contains p = true
    · simp only [hc, if_true, Option.some.injEq] at h
      rw [← h]
    · simp only [Bool.not_eq_true] at hc
      simp [hc] at h
  | DocState.updated s =>
    unfold applyChange at h
    match hf : t.find p with
    | none =>
      rw [hf] at h
      simp only [Option.some.injEq] at h
      rw [← h]
    | some old =>
      rw [hf] at h
      by_cases he : old = s
      · simp [he] at h
      · simp only [he, if_false, Option.some.injEq] at h
        rw [← h]

theorem commitChanges_keysNodup (m : ChangeMap) (t : WatchDocTree)
    (h : t.keysNodup) : (commitChanges t m).1.keysNodup := by
  induction m generalizing t with
  | nil => exact h
  | cons a rest ih =>
    obtain ⟨p, st⟩ := a
    exact ih (applyChange t p st).1 (applyChange_keysNodup t p st h)

/-- The committed tree, looked up at any path, reflects the latest recorded
accumulator entry for that path (untouched paths keep their old binding). -/
theorem commitChanges_find (m : ChangeMap) (t : WatchDocTree)
    (hm : keysNodup m) (hwf : ChangeMapWF m) (x : String) :
    (commitChanges t m).1.find x =
      match lookupCM m x with
      | some (DocState.updated s) => some s
      | some DocState.deleted => none
      | none => t.find x := by
  induction m generalizing t with
  | nil => rfl
  | cons a rest ih =>
    obtain ⟨p, st⟩ := a
    have hnods : keysNodup rest ∧ p ∉ rest.map Prod.fst := by
      unfold keysNodup at hm
      rw [List.map_cons, List.nodup_cons] at hm
      exact ⟨hm.2, hm.1⟩
    have hwfh : entryWF (p, st) = true := hwf (p, st) (List.mem_cons_self _ _)
    have hwfr : ChangeMapWF rest := fun e he => hwf e (List.mem_cons_of_mem _ he)
    have hstep : (commitChanges t ((p, st) :: rest)).1
        = (commitChanges (applyChange t p st).1 rest).1 := rfl
    rw [hstep, ih (applyChange t p st).1 hnods.1 hwfr, lookupCM_cons]
    by_cases hx : p = x
    · subst hx
      have hrest : lookupCM rest p = none :=
        alookup_eq_none_of_not_mem_keys rest p hnods.2

      rw [hrest, if_pos rfl]
      rw [applyChange_find t p st hwfh p, if_pos rfl]
      cases st <;> rfl
    · rw [if_neg hx]
      cases hlr : lookupCM rest x with
      | none =>
        rw [applyChange_find t p st hwfh x, if_neg (fun hh => hx hh.symm)]
      | some st' => cases st' <;> rfl

/-- The classification a commit must assign at path `x`, as a function of the
accumulator entry for `x` and the pre-commit tree. -/
def changeSpec (t : WatchDocTree) (x : String) (entry : Option DocState) (ty : ChangeType) : Prop :=
  match entry with
  | some (DocState.updated s) =>
    match t.find x with
    | none => ty = ChangeType.ADDED
    | some old => ¬old = s ∧ ty = ChangeType.MODIFIED
  | some DocState.deleted => t.contains x = true ∧ ty = ChangeType.REMOVED
  | none => False

/-- `changeSpec` depends on the tree only through its binding at `x`. -/
theorem changeSpec_congr (t t' : WatchDocTree) (x : String) (entry : Option DocState)
    (ty : ChangeType) (h : t.find x = t'.find x) :
    changeSpec t x entry ty ↔ changeSpec t' x entry ty := by
  cases entry with
  | none => exact Iff.rfl
  | some st =>
    cases st with
    | updated s =>
      unfold changeSpec
      rw [h]
    | deleted =>
      unfold changeSpec WatchDocTree.contains
      rw [h]

/-- The change list produced by a commit contains the entry `(ty, x)` exactly
when the accumulator entry for `x` and the pre-commit tree call for it. -/
theorem commitChanges_mem (m : ChangeMap) (t : WatchDocTree)
    (hm : keysNodup m) (hwf : ChangeMapWF m) (ty : ChangeType) (x : String) :
    (DocumentChange.mk ty x ∈ (commitChanges t m).2) ↔
      changeSpec t x (lookupCM m x) ty := by
  induction m generalizing t with
  | nil =>
    constructor
    · intro h
      exact absurd h (List.not_mem_nil _)
    · intro h
      exact absurd h not_false
  | cons a rest ih =>
    obtain ⟨p, st⟩ := a
    have hnods : keysNodup rest ∧ p ∉ rest.map Prod.fst := by
      unfold keysNodup at hm
      rw [List.map_cons, List.nodup_cons] at hm
      exact ⟨hm.2, hm.1⟩
    have hwfh : entryWF (p, st) = true := hwf (p, st) (List.mem_cons_self _ _)
    have hwfr : ChangeMapWF rest := fun e he => hwf e (List.mem_cons_of_mem _ he)
    have hfap : ∀ y, y ≠ p → (applyChange t p st).1.find y = t.find y := by
      intro y hy
      rw [applyChange_find t p st hwfh y, if_neg hy]
    have hcs : (commitChanges t ((p, st) :: rest)).2
        = (match (applyChange t p st).2 with
           | some c => c :: (commitChanges (applyChange t p st).1 rest).2
           | none => (commitChanges (applyChange t p st).1 rest).2) := rfl
    rw [hcs, lookupCM_cons]
    by_cases hx : p = x
    · subst hx
      have hrest : lookupCM rest p = none :=
        alookup_eq_none_of_not_mem_keys rest p hnods.2
      have hnotin : DocumentChange.mk ty p ∉ (commitChanges (applyChange t p st).1 rest).2 := by
        intro hmem
        have := (ih (applyChange t p st).1 hnods.1 hwfr).mp hmem
        rw [hrest] at this
        exact this
      rw [if_pos rfl]
      cases st with
      | deleted =>
        unfold changeSpec
        cases hc : t.contains p with
        | false =>
          have h2 : (applyChange t p DocState.deleted).2 = none := by
            unfold applyChange
            rw [hc]
            rfl
          rw [h2]
          simp only [Bool.false_eq_true, false_and, iff_false]
          exact hnotin
        | true =>
          have h2 : (applyChange t p DocState.deleted).2
              = some (DocumentChange.mk ChangeType.REMOVED p) := by
            unfold applyChange
            rw [hc]
            rfl
          rw [h2]
          constructor
          · intro hmem
            rcases List.mem_cons.mp hmem with h | h
            · exact ⟨rfl, congrArg DocumentChange.type h⟩
            · exact absurd h hnotin
          · intro hsp
            rw [hsp.2]
            exact List.mem_cons_self _ _
      | updated s =>
        unfold changeSpec
        cases hf : t.find p with
        | none =>
          have h2 : (applyChange t p (DocState.updated s)).2
              = some (DocumentChange.mk ChangeType.ADDED p) := by
            unfold applyChange
            rw [hf]
          rw [h2]
          constructor
          · intro hmem
            rcases List.mem_cons.mp hmem with h | h
            · exact congrArg DocumentChange.type h
            · exact absurd h hnotin
          · intro hsp
            rw [hsp]
            exact List.mem_cons_self _ _
        | some old =>
          by_cases he : old = s
          · have h2 : (applyChange t p (DocState.updated s)).2 = none := by
              unfold applyChange
              rw [hf]
              simp [he]
            rw [h2]
            constructor
            · intro hmem
              exact absurd hmem hnotin
            · intro hsp
              exact absurd he hsp.1
          · have h2 : (applyChange t p (DocState.updated s)).2
                = some (DocumentChange.mk ChangeType.MODIFIED p) := by
              unfold applyChange
              rw [hf]
              simp [he]
            rw [h2]
            constructor
            · intro hmem
              rcases List.mem_cons.mp hmem with h | h
              · exact ⟨he, congrArg DocumentChange.type h⟩
              · exact absurd h hnotin
            · intro hsp
              rw [hsp.2]
              exact List.mem_cons_self _ _
    · rw [if_neg hx]
      have hne : x ≠ p := fun hh => hx hh.symm
      have hcongr : changeSpec (applyChange t p st).1 x (lookupCM rest x) ty
          ↔ changeSpec t x (lookupCM rest x) ty :=
        changeSpec_congr _ _ x _ ty (hfap x hne)
      have htail : (DocumentChange.mk ty x ∈ (commitChanges (applyChange t p st).1 rest).2)
          ↔ changeSpec t x (lookupCM rest x) ty :=
        (ih (applyChange t p st).1 hnods.1 hwfr).trans hcongr
      cases h2 : (applyChange t p st).2 with
      | none => exact htail
      | some c =>
        constructor
        · intro hmem
          rcases List.mem_cons.mp hmem with h | h
          · have : c.path = p := applyChange_path t p st c h2
            rw [← h] at this
            exact absurd this hne
          · exact htail.mp h
        · intro hsp
          exact List.mem_cons_of_mem _ (htail.mpr hsp)

/-- A tree already consistent with an accumulator: every recorded entry is
already reflected in the tree. -/
def treeConsistent (t : WatchDocTree) (m : ChangeMap) : Prop :=
  ∀ p st, lookupCM m p = some st →
    t.find p = (match st with
                | DocState.updated s => some s
                | DocState.deleted => none)

/-- Committing an accumulator against a tree already consistent with it
records no change. -/
theorem commitChanges_of_consistent (m : ChangeMap) (t : WatchDocTree)
    (hm : keysNodup m) (hwf : ChangeMapWF m) (hc : treeConsistent t m) :
    (commitChanges t m).2 = [] := by
  induction m generalizing t with
  | nil => rfl
  | cons a rest ih =>
    obtain ⟨p, st⟩ := a
    have hnods : keysNodup rest ∧ p ∉ rest.map Prod.fst := by
      unfold keysNodup at hm
      rw [List.map_cons, List.nodup_cons] at hm
      exact ⟨hm.2, hm.1⟩
    have hwfh : entryWF (p, st) = true := hwf (p, st) (List.mem_cons_self _ _)
    have hwfr : ChangeMapWF rest := fun e he => hwf e (List.mem_cons_of_mem _ he)
    have hfind := hc p st (by rw [lookupCM_cons, if_pos rfl])
    have hrestc : ∀ t' : WatchDocTree, (∀ y, y ≠ p → t'.find y = t.find y) →
        treeConsistent t' rest := by
      intro t' hpres q stq hq
      have hqp : q ≠ p := by
        intro hh
        subst hh
        have hnone : lookupCM rest q = none :=
          alookup_eq_none_of_not_mem_keys rest q hnods.2
        rw [hnone] at hq
        exact Option.noConfusion hq
      rw [hpres q hqp]
      exact hc q stq (by rw [lookupCM_cons, if_neg (fun hh => hqp hh.symm)]; exact hq)
    cases st with
    | deleted =>
      have hap : applyChange t p DocState.deleted = (t, none) := by
        unfold applyChange
        have hcont : t.contains p = false := by
          unfold WatchDocTree.contains
          rw [hfind]
          rfl
        rw [hcont]
        rfl
      have hcs : (commitChanges t ((p, DocState.deleted) :: rest)).2
          = (commitChanges (applyChange t p DocState.deleted).1 rest).2 := by
        rw [show (commitChanges t ((p, DocState.deleted) :: rest)).2
            = (match (applyChange t p DocState.deleted).2 with
               | some c => c :: (commitChanges (applyChange t p DocState.deleted).1 rest).2
               | none => (commitChanges (applyChange t p DocState.deleted).1 rest).2) from rfl]
        rw [hap]
      rw [hcs, hap]
      exact ih t hnods.1 hwfr (hrestc t (fun y _ => rfl))
    | updated s =>
      have hpath : s.path = p := of_decide_eq_true hwfh
      have hap : applyChange t p (DocState.updated s) = (t.insert_or_replace s, none) := by
        unfold applyChange
        rw [hfind]
        simp
      have hcs : (commitChanges t ((p, DocState.updated s) :: rest)).2
          = (commitChanges (applyChange t p (DocState.updated s)).1 rest).2 := by
        rw [show (commitChanges t ((p, DocState.updated s) :: rest)).2
            = (match (applyChange t p (DocState.updated s)).2 with
               | some c => c :: (commitChanges (applyChange t p (DocState.updated s)).1 rest).2
               | none => (commitChanges (applyChange t p (DocState.updated s)).1 rest).2) from rfl]
        rw [hap]
      rw [hcs, hap]
      refine ih (t.insert_or_replace s) hnods.1 hwfr (hrestc _ ?_)
      intro y hy
      rw [WatchDocTree.find_insert, hpath, if_neg hy]

/-! ### Watch State Machine -/

/-- Modelled from the spec (section 4.3 and design note): `_should_recover`
classifies a stream termination cause; network resets, mid-stream deadline
exceeded and server go-away are retryable, permission/argument errors are not. -/
inductive ErrKind where
  | unavailable
  | deadlineExceeded
  | goAway
  | permissionDenied
  | invalidArgument
deriving DecidableEq

def _should_recover : ErrKind → Bool
  | ErrKind.unavailable => true
  | ErrKind.deadlineExceeded => true
  | ErrKind.goAway => true
  | ErrKind.permissionDenied => false
  | ErrKind.invalidArgument => false

/-- Modelled from the spec: `_should_terminate` is the complementary fatal
classification. -/
def _should_terminate (k : ErrKind) : Bool := !_should_recover k

/-- Modelled from the spec (section 6, protocol events): the transport events
the state machine consumes.  `targetNoChange` is the NO_CHANGE target change
carrying a resume token and read time; `streamError` is a stream termination
classified by `ErrKind`.  (ADD/REMOVE/FILTER target changes are not required
by any claim and are omitted.) -/
inductive WatchEvent where
  | docChange (snap : DocumentSnapshot)
  | docDelete (path : String)
  | targetCurrent
  | targetReset
  | targetNoChange (token : Nat) (readTime : Nat)
  | streamError (kind : ErrKind)
deriving DecidableEq

/-- Modelled from the spec (section 3, Target state + lifecycle): the state of
one watch.  `closed` is the TERMINATED state; the resume token is opaque bytes,
represented as a `Nat`. -/
structure WatchState where
  tree : WatchDocTree
  changeMap : ChangeMap
  current : Bool
  pendingPush : Bool
  hasPushed : Bool
  resumeToken : Option Nat
  closed : Bool
deriving DecidableEq

/-- The state of a freshly started watch. -/
def initState : WatchState :=
  WatchState.mk WatchDocTree.empty [] false false false none false

/-- One delivered snapshot: the ordered document list, the change list and the
read time handed to the user callback. -/
structure SnapshotPush where
  docs : List DocumentSnapshot
  changes : List DocumentChange
  readTime : Nat
deriving DecidableEq

/-- Modelled from the spec (section 4.1): one transition of the Watch State
Machine.  Returns the new state, the snapshot pushed to the callback (if the
event triggered a commit) and whether the error path `on_error` was invoked.
The commit trigger is NO_CHANGE-with-resume-token while `has-seen-CURRENT`
and either changes are pending or no snapshot has ever been pushed (the
first-consistency empty snapshot of section 4.1's edge case).  RESET clears
the accumulator, the CURRENT flag and the resume token but keeps the Tree;
a retryable stream error clears the accumulator and membership but keeps the
Tree and the persisted resume token (section 4.3); a fatal one moves to the
absorbing TERMINATED state and invokes the error path. -/
def watchStep (le : DocumentSnapshot → DocumentSnapshot → Bool)
    (s : WatchState) (e : WatchEvent) : WatchState × Option SnapshotPush × Bool :=
  if s.closed then (s, none, false)
  else
    match e with
    | WatchEvent.docChange snap =>
      ({ s with changeMap := record s.changeMap snap.path (DocState.updated snap),
                pendingPush := true }, none, false)
    | WatchEvent.docDelete p =>
      ({ s with changeMap := record s.changeMap p DocState.deleted,
                pendingPush := true }, none, false)
    | WatchEvent.targetCurrent => ({ s with current := true }, none, false)
    | WatchEvent.targetReset =>
      ({ s with changeMap := [], current := false, pendingPush := false,
                resumeToken := none }, none, false)
    | WatchEvent.targetNoChange tok rt =>
      if s.current && (s.pendingPush || !s.hasPushed) then
        let r := commitChanges s.tree s.changeMap
        ({ s with tree := r.1, changeMap := [], pendingPush := false,
                  hasPushed := true, resumeToken := some tok },
         some (SnapshotPush.mk (r.1.ordered_sequence le) r.2 rt), false)
      else (s, none, false)
    | WatchEvent.streamError k =>
      if _should_terminate k then ({ s with closed := true }, none, true)
      else ({ s with changeMap := [], pendingPush := false, current := false }, none, false)

/-- Run the state machine over a finite event sequence, collecting the pushed
snapshots in delivery order and counting error-path invocations. -/
def runWatch (le : DocumentSnapshot → DocumentSnapshot → Bool)
    (s : WatchState) : List WatchEvent → WatchState × List SnapshotPush × Nat
  | [] => (s, [], 0)
  | e :: es =>
    let r := watchStep le s e
    let r' := runWatch le r.1 es
    (r'.1,
     (match r.2.1 with
      | some push => push :: r'.2.1
      | none => r'.2.1),
     (if r.2.2 then 1 else 0) + r'.2.2)

/-- Modelled from the spec (sections 4.3 and 6): the initial request supplied
to the Resumable Stream Transport on (re)connection — the last persisted
resume token when one exists, the plain initial request otherwise. -/
inductive StreamRequest where
  | initialRequest
  | resume (token : Nat)
deriving DecidableEq

def reconnectRequest (s : WatchState) : StreamRequest :=
  match s.resumeToken with
  | some t => StreamRequest.resume t
  | none => StreamRequest.initialRequest

/-! ### Spec-side description of a sequence of document events -/

/-- A document-level event: DocumentChange or DocumentDelete/DocumentRemove. -/
inductive DocEvent where
  | change (snap : DocumentSnapshot)
  | delete (path : String)
deriving DecidableEq

def DocEvent.toWatchEvent : DocEvent → WatchEvent
  | DocEvent.change snap => WatchEvent.docChange snap
  | DocEvent.delete p => WatchEvent.docDelete p

def DocEvent.path : DocEvent → String
  | DocEvent.change snap => snap.path
  | DocEvent.delete p => p

def DocEvent.toState : DocEvent → DocState
  | DocEvent.change snap => DocState.updated snap
  | DocEvent.delete _ => DocState.deleted

/-- The latest recorded state for a path over a sequence of document events:
the state carried by the last event touching that path, if any. -/
def latestState (es : List DocEvent) (p : String) : Option DocState :=
  (es.reverse.find? (fun e => e.path == p)).map DocEvent.toState

/-- Folding a sequence of document events into a Change Accumulator, the way
the state machine records them. -/
def accumDocs (m : ChangeMap) : List DocEvent → ChangeMap
  | [] => m
  | e :: es => accumDocs (record m e.path e.toState) es

theorem latestState_cons (e : DocEvent) (es : List DocEvent) (p : String) :
    latestState (e :: es) p
      = (latestState es p).or (if e.path = p then some e.toState else none) := by
  unfold latestState
  rw [List.reverse_cons, List.find?_append]
  cases hfind : List.find? (fun x => DocEvent.path x == p) es.reverse with
  | some v => rfl
  | none =>
    by_cases h : e.path = p
    · have hb : (e.path == p) = true := by simp [h]
      rw [show List.find? (fun x => DocEvent.path x == p) [e] = some e from by
        simp [List.find?, hb]]
      simp [h]
    · have hb : (e.path == p) = false := by simp [h]
      rw [show List.find? (fun x => DocEvent.path x == p) [e] = none from by
        simp [List.find?, hb]]
      simp [h]

theorem lookupCM_accumDocs (es : List DocEvent) (m : ChangeMap) (p : String) :
    lookupCM (accumDocs m es) p = (latestState es p).or (lookupCM m p) := by
  induction es generalizing m with
  | nil => rfl
  | cons e es ih =>
    rw [show accumDocs m (e :: es) = accumDocs (record m e.path e.toState) es from rfl]
    rw [ih, latestState_cons, Option.or_assoc]
    congr 1
    rw [lookupCM_record]
    by_cases h : p = e.path
    · rw [if_pos h, if_pos h.symm]
      rfl
    · rw [if_neg h, if_neg (fun hh => h hh.symm)]
      rfl

theorem accumDocs_wf (es : List DocEvent) (m : ChangeMap)
    (h : ChangeMapWF m) : ChangeMapWF (accumDocs m es) := by
  induction es generalizing m with
  | nil => exact h
  | cons e es ih =>
    refine ih _ (ChangeMapWF_record m e.path e.toState h ?_)
    cases e with
    | change snap => simp [entryWF, DocEvent.path, DocEvent.toState]
    | delete p => rfl

theorem accumDocs_keysNodup (es : List DocEvent) (m : ChangeMap)
    (h : keysNodup m) : keysNodup (accumDocs m es) := by
  induction es generalizing m with
  | nil => exact h
  | cons e es ih => exact ih _ (keysNodup_record m e.path e.toState h)

/-! ### Run lemmas -/

theorem runWatch_append (le : DocumentSnapshot → DocumentSnapshot → Bool)
    (s : WatchState) (xs ys : List WatchEvent) :
    runWatch le s (xs ++ ys)
      = ((runWatch le (runWatch le s xs).1 ys).1,
         (runWatch le s xs).2.1 ++ (runWatch le (runWatch le s xs).1 ys).2.1,
         (runWatch le s xs).2.2 + (runWatch le (runWatch le s xs).1 ys).2.2) := by
  induction xs generalizing s with
  | nil => simp [runWatch]
  | cons e xs ih =>
    simp only [List.cons_append, runWatch, List.append_eq]
    rw [ih ((watchStep le s e).1)]
    cases (watchStep le s e).2.1 with
    | none =>
      cases h2 : (watchStep le s e).2.2 <;> simp [Nat.add_assoc]
    | some push =>
      cases h2 : (watchStep le s e).2.2 <;> simp [Nat.add_assoc]

theorem runWatch_docEvents (le : DocumentSnapshot → DocumentSnapshot → Bool)
    (es : List DocEvent) (s : WatchState) (h : s.closed = false) :
    ∃ b, runWatch le s (es.map DocEvent.toWatchEvent)
      = ({ s with changeMap := accumDocs s.changeMap es, pendingPush := b }, [], 0) := by
  induction es generalizing s with
  | nil => exact ⟨s.pendingPush, rfl⟩
  | cons e es ih =>
    have hstep : watchStep le s e.toWatchEvent
        = ({ s with changeMap := record s.changeMap e.path e.toState,
                    pendingPush := true }, none, false) := by
      cases e with
      | change snap =>
        simp [watchStep, h, DocEvent.toWatchEvent, DocEvent.path, DocEvent.toState]
      | delete p =>
        simp [watchStep, h, DocEvent.toWatchEvent, DocEvent.path, DocEvent.toState]
    obtain ⟨b, hb⟩ := ih { s with changeMap := record s.changeMap e.path e.toState,
                                  pendingPush := true } h
    refine ⟨b, ?_⟩
    rw [List.map_cons]
    simp only [runWatch, hstep]
    rw [hb]
    rfl

/-- Modelled from the spec (section 4.2): the comparator injected for
document watches falls back to document-path ordering.  It is represented, as
everywhere in this development, by a boolean less-or-equal test on snapshots. -/
def document_watch_comparator (a b : DocumentSnapshot) : Bool :=
  decide (a.path ≤ b.path)

theorem document_watch_comparator_trans (a b c : DocumentSnapshot)
    (h1 : document_watch_comparator a b = true)
    (h2 : document_watch_comparator b c = true) :
    document_watch_comparator a c = true := by
  unfold document_watch_comparator at h1 h2 ⊢
  rw [decide_eq_true_eq] at h1 h2 ⊢
  exact le_trans h1 h2

theorem document_watch_comparator_total (a b : DocumentSnapshot) :
    (document_watch_comparator a b || document_watch_comparator b a) = true := by
  unfold document_watch_comparator
  rw [Bool.or_eq_true, decide_eq_true_eq, decide_eq_true_eq]
  exact le_total a.path b.path

/-- A closed (TERMINATED) watch ignores every event: no state change, no push,
no error-path invocation. -/
theorem runWatch_closed (le : DocumentSnapshot → DocumentSnapshot → Bool)
    (s : WatchState) (es : List WatchEvent) (h : s.closed = true) :
    runWatch le s es = (s, [], 0) := by
  induction es with
  | nil => rfl
  | cons e es ih =>
    have hstep : watchStep le s e = (s, none, false) := by
      unfold watchStep
      rw [h]
      rfl
    simp only [runWatch, hstep]
    rw [ih]
    simp

/-- From an open state, a step leaves the machine closed exactly when it
invoked the error path. -/
theorem watchStep_flag_closed (le : DocumentSnapshot → DocumentSnapshot → Bool)
    (s : WatchState) (e : WatchEvent) (h : s.closed = false) :
    (watchStep le s e).1.closed = (watchStep le s e).2.2 := by
  cases e with
  | docChange snap => simp [watchStep, h]
  | docDelete p => simp [watchStep, h]
  | targetCurrent => simp [watchStep, h]
  | targetReset => simp [watchStep, h]
  | targetNoChange tok rt =>
    by_cases hc : (s.current && (s.pendingPush || !s.hasPushed)) = true
    · simp [watchStep, h, hc]
    · simp [watchStep, h, hc]
  | streamError k =>
    by_cases hk : _should_terminate k = true
    · simp [watchStep, h, hk]
    · simp [watchStep, h, hk]

/-- Over any event sequence started from an open state, the error path is
invoked at most once. -/
theorem runWatch_errCount_le_one (le : DocumentSnapshot → DocumentSnapshot → Bool)
    (es : List WatchEvent) (s : WatchState) (h : s.closed = false) :
    (runWatch le s es).2.2 ≤ 1 := by
  induction es generalizing s with
  | nil => exact Nat.zero_le 1
  | cons e es ih =>
    show (if (watchStep le s e).2.2 then 1 else 0)
        + (runWatch le (watchStep le s e).1 es).2.2 ≤ 1
    cases hf : (watchStep le s e).2.2 with
    | false =>
      have hcl : (watchStep le s e).1.closed = false := by
        rw [watchStep_flag_closed le s e h, hf]
      simpa using ih _ hcl
    | true =>
      have hcl : (watchStep le s e).1.closed = true := by
        rw [watchStep_flag_closed le s e h, hf]
      rw [runWatch_closed le _ es hcl]
      simp

/-- A step that is not a RESET and pushes nothing leaves the persisted resume
token untouched. -/
theorem watchStep_token_preserved (le : DocumentSnapshot → DocumentSnapshot → Bool)
    (s : WatchState) (e : WatchEvent)
    (hpush : (watchStep le s e).2.1 = none) (hre : e ≠ WatchEvent.targetReset) :
    (watchStep le s e).1.resumeToken = s.resumeToken := by
  by_cases h : s.closed = true
  · simp [watchStep, h]
  · rw [Bool.not_eq_true] at h
    cases e with
    | docChange snap => simp [watchStep, h]
    | docDelete p => simp [watchStep, h]
    | targetCurrent => simp [watchStep, h]
    | targetReset => exact absurd rfl hre
    | targetNoChange tok rt =>
      by_cases hc : (s.current && (s.pendingPush || !s.hasPushed)) = true
      · have hp : (watchStep le s (WatchEvent.targetNoChange tok rt)).2.1
            = some (SnapshotPush.mk
                ((commitChanges s.tree s.changeMap).1.ordered_sequence le)
                (commitChanges s.tree s.changeMap).2 rt) := by
          simp [watchStep, h, hc]
        rw [hp] at hpush
        exact absurd hpush (by simp)
      · simp [watchStep, h, hc]
    | streamError k =>
      by_cases hk : _should_terminate k = true
      · simp [watchStep, h, hk]
      · simp [watchStep, h, hk]

/-- Over any RESET-free event sequence that commits nothing, the persisted
resume token is unchanged. -/
theorem runWatch_token_preserved (le : DocumentSnapshot → DocumentSnapshot → Bool)
    (es : List WatchEvent) (s : WatchState)
    (hre : WatchEvent.targetReset ∉ es) (hpush : (runWatch le s es).2.1 = []) :
    (runWatch le s es).1.resumeToken = s.resumeToken := by
  induction es generalizing s with
  | nil => rfl
  | cons e es ih =>
    have hre1 : e ≠ WatchEvent.targetReset := by
      intro hh
      exact hre (hh ▸ List.mem_cons_self _ _)
    have hre2 : WatchEvent.targetReset ∉ es := fun hh => hre (List.mem_cons_of_mem _ hh)
    have hp1 : (watchStep le s e).2.1 = none := by
      cases hs : (watchStep le s e).2.1 with
      | none => rfl
      | some push =>
        have : (runWatch le s (e :: es)).2.1
            = push :: (runWatch le (watchStep le s e).1 es).2.1 := by
          simp only [runWatch, hs]
        rw [hpush] at this
        exact absurd this.symm (List.cons_ne_nil _ _)
    have hp2 : (runWatch le (watchStep le s e).1 es).2.1 = [] := by
      have : (runWatch le s (e :: es)).2.1
          = (runWatch le (watchStep le s e).1 es).2.1 := by
        simp only [runWatch, hp1]
      rw [← this]
      exact hpush
    have h1 : (runWatch le s (e :: es)).1 = (runWatch le (watchStep le s e).1 es).1 := rfl
    rw [h1, ih _ hre2 hp2]
    exact watchStep_token_preserved le s e hp1 hre1

/-! ### AsyncQuery (translated from async_query.py) -/

/-- An order-by direction (`BaseQuery.ASCENDING` / `BaseQuery.DESCENDING`). -/
inductive Direction where
  | ASCENDING
  | DESCENDING
deriving DecidableEq

/-- One entry of `_orders` (a `StructuredQuery.Order`): the only attribute
this subsystem touches is its mutable `direction`. -/
structure QueryOrder where
  direction : Direction
deriving DecidableEq

/-- Modelled from the spec: `_enum_from_direction` lives in `base_query.py`,
outside the excerpt, in the out-of-scope query-building layer; it converts a
direction constant to its wire enum form, the identity at this level of
abstraction. -/
def _enum_from_direction (d : Direction) : Direction := d

/-- The fields of an `AsyncQuery` instance that `get`/`stream` read or write:
`_orders`, `_limit_to_last` and `_all_descendants`. -/
structure AsyncQuery where
  _orders : List QueryOrder
  _limit_to_last : Bool
  _all_descendants : Bool
deriving DecidableEq

/-- The error raised by `AsyncQuery.stream` on a `limit_to_last` query. -/
inductive QueryError where
  | valueError
deriving DecidableEq

/-- The response-consuming loop of `AsyncQuery.stream` (async_query.py lines
200-210): for each response pick the converter according to
`_all_descendants` and yield the snapshot when it is not `None`.  The two
converters (`_query_response_to_snapshot`,
`_collection_group_query_response_to_snapshot`) are external collaborators
from `base_query.py` and are taken as parameters. -/
def streamLoop {Resp Snap : Type} (q : AsyncQuery)
    (qrts cgqrts : Resp → Option Snap) : List Resp → List Snap
  | [] => []
  | r :: rest =>
    match (if q._all_descendants then cgqrts r else qrts r) with
    | some snapshot => snapshot :: streamLoop q qrts cgqrts rest
    | none => streamLoop q qrts cgqrts rest

/-- `AsyncQuery.stream` (async_query.py lines 155-210): raises `ValueError`
when `_limit_to_last` is set, before issuing the RunQuery RPC; otherwise runs
the RPC and yields the converted snapshots.  Returns the (unmodified) query
instance, whether the RPC was issued, and the outcome. -/
def AsyncQuery.stream {Resp Snap : Type} (q : AsyncQuery)
    (qrts cgqrts : Resp → Option Snap) (responses : List Resp) :
    AsyncQuery × Bool × Except QueryError (List Snap) :=
  if q._limit_to_last then (q, false, Except.error QueryError.valueError)
  else (q, true, Except.ok (streamLoop q qrts cgqrts responses))

/-- `AsyncQuery.get` (async_query.py lines 116-153): when `_limit_to_last` is
set, flip the direction of every entry of `_orders` in place and clear
`_limit_to_last`, then stream and reverse the collected results.  Returns the
(possibly mutated) query instance and the outcome. -/
def AsyncQuery.get {Resp Snap : Type} (q : AsyncQuery)
    (qrts cgqrts : Resp → Option Snap) (responses : List Resp) :
    AsyncQuery × Except QueryError (List Snap) :=
  let is_limited_to_last := q._limit_to_last
  let q1 : AsyncQuery :=
    if q._limit_to_last then
      { q with
        _orders := q._orders.map (fun o =>
          QueryOrder.mk (_enum_from_direction
            (if o.direction = Direction.ASCENDING then Direction.DESCENDING
             else Direction.ASCENDING))),
        _limit_to_last := false }
    else q
  match (q1.stream qrts cgqrts responses).2.2 with
  | Except.error e => (q1, Except.error e)
  | Except.ok result =>
    (q1, Except.ok (if is_limited_to_last then result.reverse else result))

/-- The net effect of `get`'s in-place order flip on one direction. -/
def flipDirection : Direction → Direction
  | Direction.ASCENDING => Direction.DESCENDING
  | Direction.DESCENDING => Direction.ASCENDING

theorem streamLoop_eq_filterMap {Resp Snap : Type} (q : AsyncQuery)
    (qrts cgqrts : Resp → Option Snap) (rs : List Resp) :
    streamLoop q qrts cgqrts rs
      = rs.filterMap (fun r => if q._all_descendants then cgqrts r else qrts r) := by
  induction rs with
  | nil => rfl
  | cons r rest ih =>
    rw [List.filterMap_cons]
    cases hc : (if q._all_descendants then cgqrts r else qrts r) with
    | none =>
      rw [show streamLoop q qrts cgqrts (r :: rest)
          = (match (if q._all_descendants then cgqrts r else qrts r) with
             | some snapshot => snapshot :: streamLoop q qrts cgqrts rest
             | none => streamLoop q qrts cgqrts rest) from rfl]
      rw [hc]
      exact ih
    | some snapshot =>
      rw [show streamLoop q qrts cgqrts (r :: rest)
          = (match (if q._all_descendants then cgqrts r else qrts r) with
             | some snapshot => snapshot :: streamLoop q qrts cgqrts rest
             | none => streamLoop q qrts cgqrts rest) from rfl]
      rw [hc, ih]

/-! ### Claim theorems -/

/-- Claim C1: for every finite sequence of DocumentChange and DocumentDelete
events applied to the watch state machine (from its initial state) and then a
NO_CHANGE TargetChange carrying a resume token while has-seen-CURRENT is true,
the committed Ordered Document Tree contains exactly those document paths
whose latest recorded accumulator entry was updated-with(snapshot), and
contains no path whose latest entry was deleted (deleting an absent path is a
no-op). -/
theorem c1_commit_contains_latest_updated
    (le : DocumentSnapshot → DocumentSnapshot → Bool)
    (es : List DocEvent) (tok rt : Nat) (x : String) :
    ((runWatch le initState (es.map DocEvent.toWatchEvent
        ++ [WatchEvent.targetCurrent, WatchEvent.targetNoChange tok rt])).1.tree.contains x
      = true)
      ↔ ∃ snap, latestState es x = some (DocState.updated snap) := by
  obtain ⟨b, hb⟩ := runWatch_docEvents le es initState rfl
  rw [runWatch_append, hb]
  have hrun : (runWatch le
      ({ initState with changeMap := accumDocs initState.changeMap es, pendingPush := b }, ([] : List SnapshotPush), 0).1
      [WatchEvent.targetCurrent, WatchEvent.targetNoChange tok rt]).1.tree
      = (commitChanges WatchDocTree.empty (accumDocs ([] : ChangeMap) es)).1 := by
    simp [runWatch, watchStep, initState]
  rw [hrun]
  have hm : keysNodup (accumDocs ([] : ChangeMap) es) :=
    accumDocs_keysNodup es [] (by unfold keysNodup; simp)
  have hwf : ChangeMapWF (accumDocs ([] : ChangeMap) es) :=
    accumDocs_wf es [] (fun e he => absurd he (List.not_mem_nil _))
  have hfind := commitChanges_find (accumDocs ([] : ChangeMap) es) WatchDocTree.empty hm hwf x
  have hlook : lookupCM (accumDocs ([] : ChangeMap) es) x = latestState es x := by
    rw [lookupCM_accumDocs]
    cases latestState es x <;> rfl
  unfold WatchDocTree.contains
  rw [hfind, hlook]
  cases hls : latestState es x with
  | none => simp [WatchDocTree.empty, WatchDocTree.find, alookup]
  | some st =>
    cases st with
    | updated s => simp
    | deleted => simp

/-- Claim C2: on a NO_CHANGE TargetChange carrying a resume token, the machine
commits and invokes the snapshot callback exactly when has-seen-CURRENT holds
together with pending push or first-time consistency (no snapshot pushed yet);
in particular, the first time consistency is reached with an empty Change
Accumulator and no prior DocumentChange events, the callback fires exactly
once, with an empty ordered document list and an empty change list. -/
theorem c2_commit_trigger (le : DocumentSnapshot → DocumentSnapshot → Bool) :
    (∀ (s : WatchState) (tok rt : Nat), s.closed = false →
      ((watchStep le s (WatchEvent.targetNoChange tok rt)).2.1.isSome
        = (s.current && (s.pendingPush || !s.hasPushed))))
    ∧ (runWatch le initState
        [WatchEvent.targetCurrent, WatchEvent.targetNoChange 7 3,
         WatchEvent.targetNoChange 9 4]).2.1
      = [SnapshotPush.mk [] [] 3] := by
  constructor
  · intro s tok rt h
    by_cases hc : (s.current && (s.pendingPush || !s.hasPushed)) = true
    · simp [watchStep, h, hc]
    · simp [watchStep, h, hc]
  · simp [runWatch, watchStep, initState, commitChanges,
      WatchDocTree.ordered_sequence, WatchDocTree.empty, List.mergeSort_nil]

/-- Witness for C2 at a concrete open state. -/
theorem c2_commit_trigger_witness :
    (watchStep document_watch_comparator initState
        (WatchEvent.targetNoChange 5 6)).2.1.isSome
      = (initState.current && (initState.pendingPush || !initState.hasPushed)) :=
  (c2_commit_trigger document_watch_comparator).1 initState 5 6 rfl

/-- Claim C3: each entry of the change list produced by a commit is classified
by presence in the Tree before and after the commit: ADDED iff the path was
absent pre-commit and present post-commit, REMOVED iff present pre-commit and
absent post-commit, MODIFIED iff present in both with changed snapshot
contents. -/
theorem c3_change_classification (t : WatchDocTree) (m : ChangeMap)
    (hm : keysNodup m) (hwf : ChangeMapWF m) (x : String) :
    ((DocumentChange.mk ChangeType.ADDED x ∈ (commitChanges t m).2)
      ↔ (t.contains x = false ∧ (commitChanges t m).1.contains x = true))
    ∧ ((DocumentChange.mk ChangeType.REMOVED x ∈ (commitChanges t m).2)
      ↔ (t.contains x = true ∧ (commitChanges t m).1.contains x = false))
    ∧ ((DocumentChange.mk ChangeType.MODIFIED x ∈ (commitChanges t m).2)
      ↔ (t.contains x = true ∧ (commitChanges t m).1.contains x = true
          ∧ ¬(commitChanges t m).1.find x = t.find x)) := by
  have hmemA := commitChanges_mem m t hm hwf ChangeType.ADDED x
  have hmemR := commitChanges_mem m t hm hwf ChangeType.REMOVED x
  have hmemM := commitChanges_mem m t hm hwf ChangeType.MODIFIED x
  have hfind := commitChanges_find m t hm hwf x
  have hcont : (commitChanges t m).1.contains x = ((commitChanges t m).1.find x).isSome := rfl
  have hcontT : t.contains x = (t.find x).isSome := rfl
  cases hl : lookupCM m x with
  | none =>
    rw [hl] at hmemA hmemR hmemM hfind
    simp only [changeSpec] at hmemA hmemR hmemM
    have hfind' : (commitChanges t m).1.find x = t.find x := hfind
    have hcEq : (commitChanges t m).1.contains x = t.contains x := by
      rw [hcont, hfind', ← hcontT]
    refine ⟨?_, ?_, ?_⟩
    · rw [hmemA, hcEq]
      cases hc : t.contains x <;> simp
    · rw [hmemR, hcEq]
      cases hc : t.contains x <;> simp
    · rw [hmemM, hcEq, hfind']
      simp
  | some st =>
    cases st with
    | updated s =>
      rw [hl] at hmemA hmemR hmemM hfind
      have hfind' : (commitChanges t m).1.find x = some s := hfind
      have hpost : (commitChanges t m).1.contains x = true := by
        rw [hcont, hfind']
        rfl
      cases hf : t.find x with
      | none =>
        have hpre : t.contains x = false := by
          rw [hcontT, hf]
          rfl
        simp only [changeSpec, hf] at hmemA hmemR hmemM
        refine ⟨?_, ?_, ?_⟩
        · rw [hmemA, hpre, hpost]
          simp
        · rw [hmemR, hpre]
          simp
        · rw [hmemM, hpre]
          simp
      | some old =>
        have hpre : t.contains x = true := by
          rw [hcontT, hf]
          rfl
        simp only [changeSpec, hf] at hmemA hmemR hmemM
        refine ⟨?_, ?_, ?_⟩
        · rw [hmemA, hpre]
          simp
        · rw [hmemR, hpost]
          simp
        · rw [hmemM, hpre, hpost, hfind']
          simp [eq_comm]
    | deleted =>
      rw [hl] at hmemA hmemR hmemM hfind
      have hfind' : (commitChanges t m).1.find x = none := hfind
      have hpost : (commitChanges t m).1.contains x = false := by
        rw [hcont, hfind']
        rfl
      simp only [changeSpec] at hmemA hmemR hmemM
      refine ⟨?_, ?_, ?_⟩
      · rw [hmemA, hpost]
        simp
      · rw [hmemR, hpost]
        cases hc : t.contains x <;> simp
      · rw [hmemM, hpost]
        simp

/-- Sample path and snapshots for concrete instantiations. -/
def pathA : String := "a"

def pathB : String := "b"

def snapA : DocumentSnapshot := DocumentSnapshot.mk pathA 1 1

def snapB : DocumentSnapshot := DocumentSnapshot.mk pathB 2 1

/-- Witness for C3 at a concrete tree and accumulator. -/
theorem c3_change_classification_witness :
    (DocumentChange.mk ChangeType.REMOVED pathA
        ∈ (commitChanges (WatchDocTree.mk [(pathA, snapA)]) [(pathA, DocState.deleted)]).2)
      ↔ ((WatchDocTree.mk [(pathA, snapA)]).contains pathA = true
          ∧ (commitChanges (WatchDocTree.mk [(pathA, snapA)])
              [(pathA, DocState.deleted)]).1.contains pathA = false) :=
  (c3_change_classification (WatchDocTree.mk [(pathA, snapA)]) [(pathA, DocState.deleted)]
      (by decide) (by decide) pathA).2.1

/-- Every step preserves the at-most-one-entry-per-path invariant of the Tree. -/
theorem watchStep_keysNodup (le : DocumentSnapshot → DocumentSnapshot → Bool)
    (s : WatchState) (e : WatchEvent) (h : s.tree.keysNodup) :
    (watchStep le s e).1.tree.keysNodup := by
  by_cases hcl : s.closed = true
  · simpa [watchStep, hcl] using h
  · rw [Bool.not_eq_true] at hcl
    cases e with
    | docChange snap => simpa [watchStep, hcl] using h
    | docDelete p => simpa [watchStep, hcl] using h
    | targetCurrent => simpa [watchStep, hcl] using h
    | targetReset => simpa [watchStep, hcl] using h
    | targetNoChange tok rt =>
      by_cases hc : (s.current && (s.pendingPush || !s.hasPushed)) = true
      · have : (watchStep le s (WatchEvent.targetNoChange tok rt)).1.tree
            = (commitChanges s.tree s.changeMap).1 := by
          simp [watchStep, hcl, hc]
        rw [this]
        exact commitChanges_keysNodup s.changeMap s.tree h
      · simpa [watchStep, hcl, hc] using h
    | streamError k =>
      by_cases hk : _should_terminate k = true
      · simpa [watchStep, hcl, hk] using h
      · simpa [watchStep, hcl, hk] using h

/-- Claim C4: immediately after any step — in particular any commit — the
Tree keeps at most one entry per document path, and `ordered_sequence` is
sorted according to the injected comparator (which section 4.2 requires to be
transitive and total). -/
theorem c4_ordered_and_duplicate_free
    (le : DocumentSnapshot → DocumentSnapshot → Bool)
    (htr : ∀ a b c, le a b = true → le b c = true → le a c = true)
    (hto : ∀ a b, (le a b || le b a) = true)
    (s : WatchState) (e : WatchEvent) (h : s.tree.keysNodup) :
    (watchStep le s e).1.tree.keysNodup
    ∧ ((watchStep le s e).1.tree.ordered_sequence le).Pairwise
        (fun a b => le a b = true) := by
  constructor
  · exact watchStep_keysNodup le s e h
  · exact List.sorted_mergeSort htr hto _

/-- Witness for C4 at the document-path comparator and a concrete state. -/
theorem c4_ordered_and_duplicate_free_witness :
    (watchStep document_watch_comparator initState WatchEvent.targetCurrent).1.tree.keysNodup :=
  (c4_ordered_and_duplicate_free document_watch_comparator
      document_watch_comparator_trans document_watch_comparator_total
      initState WatchEvent.targetCurrent (by decide)).1

/-- Claim C5: delivering the same committed snapshot's underlying events a
second time to a Tree already consistent with them and recomputing the diff at
the next commit yields an empty change list. -/
theorem c5_duplicate_push_idempotent (t : WatchDocTree) (m : ChangeMap)
    (hm : keysNodup m) (hwf : ChangeMapWF m) :
    (commitChanges (commitChanges t m).1 m).2 = [] := by
  apply commitChanges_of_consistent m _ hm hwf
  intro p st hp
  rw [commitChanges_find m t hm hwf p, hp]
  cases st <;> rfl

/-- Witness for C5 at a concrete tree and accumulator. -/
theorem c5_duplicate_push_idempotent_witness :
    (commitChanges (commitChanges (WatchDocTree.mk [(pathA, snapA)])
        [(pathA, DocState.deleted), (pathB, DocState.updated snapB)]).1
        [(pathA, DocState.deleted), (pathB, DocState.updated snapB)]).2 = [] :=
  c5_duplicate_push_idempotent (WatchDocTree.mk [(pathA, snapA)])
    [(pathA, DocState.deleted), (pathB, DocState.updated snapB)]
    (by decide) (by decide)

/-- Claim C6: the resume token supplied on reconnection is the one persisted
by the most recent commit, never an older one: RESET clears the persisted
token and makes reconnection fall back to the transport's initial request; a
commit persists the freshly received token; every other push-free step
preserves the token, as does any RESET-free push-free run; and reconnection
uses exactly the persisted token when present, the initial request
otherwise. -/
theorem c6_resume_token (le : DocumentSnapshot → DocumentSnapshot → Bool)
    (s : WatchState) (h : s.closed = false) :
    ((watchStep le s WatchEvent.targetReset).1.resumeToken = none
      ∧ reconnectRequest (watchStep le s WatchEvent.targetReset).1
          = StreamRequest.initialRequest)
    ∧ (∀ tok rt, (watchStep le s (WatchEvent.targetNoChange tok rt)).2.1.isSome = true →
        (watchStep le s (WatchEvent.targetNoChange tok rt)).1.resumeToken = some tok)
    ∧ (∀ e, (watchStep le s e).2.1 = none → e ≠ WatchEvent.targetReset →
        (watchStep le s e).1.resumeToken = s.resumeToken)
    ∧ (∀ tok, s.resumeToken = some tok → reconnectRequest s = StreamRequest.resume tok)
    ∧ (s.resumeToken = none → reconnectRequest s = StreamRequest.initialRequest)
    ∧ (∀ es, WatchEvent.targetReset ∉ es → (runWatch le s es).2.1 = [] →
        (runWatch le s es).1.resumeToken = s.resumeToken) := by
  refine ⟨⟨?_, ?_⟩, ?_, ?_, ?_, ?_, ?_⟩
  · simp [watchStep, h]
  · simp [watchStep, h, reconnectRequest]
  · intro tok rt hp
    by_cases hc : (s.current && (s.pendingPush || !s.hasPushed)) = true
    · simp [watchStep, h, hc]
    · rw [show watchStep le s (WatchEvent.targetNoChange tok rt) = (s, none, false) from by
        simp [watchStep, h, hc]] at hp
      exact absurd hp (by simp)
  · intro e hp hre
    exact watchStep_token_preserved le s e hp hre
  · intro tok htok
    unfold reconnectRequest
    rw [htok]
  · intro hnone
    unfold reconnectRequest
    rw [hnone]
  · intro es hre hp
    exact runWatch_token_preserved le es s hre hp

/-- Witness for C6 at a concrete open state. -/
theorem c6_resume_token_witness :
    (watchStep document_watch_comparator initState WatchEvent.targetReset).1.resumeToken
      = none :=
  (c6_resume_token document_watch_comparator initState rfl).1.1

/-- Claim C7: a FATAL stream termination from an open state moves the machine
to the absorbing TERMINATED state and invokes the consumer's error path; a
terminated machine ignores every further event (no transition leaves
TERMINATED); and over the whole lifetime of a watch the error path is invoked
at most once. -/
theorem c7_fatal_terminates_once (le : DocumentSnapshot → DocumentSnapshot → Bool) :
    (∀ k, _should_terminate k = true → ∀ s : WatchState, s.closed = false →
      ((watchStep le s (WatchEvent.streamError k)).1.closed = true
        ∧ (watchStep le s (WatchEvent.streamError k)).2.2 = true))
    ∧ (∀ (s : WatchState) (e : WatchEvent), s.closed = true →
        watchStep le s e = (s, none, false))
    ∧ (∀ es, (runWatch le initState es).2.2 ≤ 1) := by
  refine ⟨?_, ?_, ?_⟩
  · intro k hk s h
    constructor
    · simp [watchStep, h, hk]
    · simp [watchStep, h, hk]
  · intro s e h
    unfold watchStep
    rw [h]
    rfl
  · intro es
    exact runWatch_errCount_le_one le es initState rfl

/-- Witness for C7: a double fatal error still invokes the error path once. -/
theorem c7_fatal_terminates_once_witness :
    (runWatch document_watch_comparator initState
        [WatchEvent.streamError ErrKind.permissionDenied,
         WatchEvent.streamError ErrKind.invalidArgument]).2.2 ≤ 1 :=
  (c7_fatal_terminates_once document_watch_comparator).2.2
    [WatchEvent.streamError ErrKind.permissionDenied,
     WatchEvent.streamError ErrKind.invalidArgument]

/-- Claim C9: for a query with `limit_to_last` set, `get` mutates the instance
itself: every `_orders` entry's direction is flipped (ASCENDING to DESCENDING
and vice versa), `_limit_to_last` is cleared before streaming, the resulting
instance differs from the original, and a second `get` on the same instance
runs against — and keeps — the mutated ordering state. -/
theorem c9_get_mutates_query {Resp Snap : Type} (q : AsyncQuery)
    (qrts cgqrts : Resp → Option Snap) (rs : List Resp)
    (h : q._limit_to_last = true) :
    ((q.get qrts cgqrts rs).1._orders
        = q._orders.map (fun o => QueryOrder.mk (flipDirection o.direction)))
    ∧ (q.get qrts cgqrts rs).1._limit_to_last = false
    ∧ ¬(q.get qrts cgqrts rs).1 = q
    ∧ ((q.get qrts cgqrts rs).1.get qrts cgqrts rs).1 = (q.get qrts cgqrts rs).1 := by
  have hfun : (fun o : QueryOrder => QueryOrder.mk (_enum_from_direction
        (if o.direction = Direction.ASCENDING then Direction.DESCENDING
         else Direction.ASCENDING)))
      = (fun o : QueryOrder => QueryOrder.mk (flipDirection o.direction)) := by
    funext o
    cases ho : o.direction with
    | ASCENDING => simp [_enum_from_direction, flipDirection, ho]
    | DESCENDING => simp [_enum_from_direction, flipDirection, ho]
  have hq1 : (q.get qrts cgqrts rs).1
      = { q with
          _orders := q._orders.map (fun o => QueryOrder.mk (flipDirection o.direction)),
          _limit_to_last := false } := by
    unfold AsyncQuery.get AsyncQuery.stream
    simp [h, hfun]
  refine ⟨?_, ?_, ?_, ?_⟩
  · rw [hq1]
  · rw [hq1]
  · intro heq
    have hflag : (q.get qrts cgqrts rs).1._limit_to_last = true := by
      rw [heq]
      exact h
    rw [hq1] at hflag
    exact Bool.noConfusion hflag
  · rw [hq1]
    unfold AsyncQuery.get AsyncQuery.stream
    simp

/-- Witness for C9 at a concrete query. -/
theorem c9_get_mutates_query_witness :
    ((AsyncQuery.mk [QueryOrder.mk Direction.ASCENDING] true false).get
        (fun n : Nat => some n) (fun n : Nat => some n) [1, 2]).1._limit_to_last = false :=
  (c9_get_mutates_query (AsyncQuery.mk [QueryOrder.mk Direction.ASCENDING] true false)
      (fun n : Nat => some n) (fun n : Nat => some n) [1, 2] rfl).2.1

/-- Claim C10: `AsyncQuery.stream` raises ValueError if and only if
`_limit_to_last` is set at iteration time; it raises before issuing the
RunQuery RPC and yields no snapshot, leaving the query instance unchanged;
when the flag is clear, the RPC runs and every non-None converted snapshot is
yielded in response order. -/
theorem c10_stream_raises_iff_limit_to_last {Resp Snap : Type} (q : AsyncQuery)
    (qrts cgqrts : Resp → Option Snap) (rs : List Resp) :
    ((q.stream qrts cgqrts rs).1 = q)
    ∧ ((q.stream qrts cgqrts rs).2.2 = Except.error QueryError.valueError
        ↔ q._limit_to_last = true)
    ∧ (q._limit_to_last = true → (q.stream qrts cgqrts rs).2.1 = false)
    ∧ (q._limit_to_last = false →
        ((q.stream qrts cgqrts rs).2.1 = true
          ∧ (q.stream qrts cgqrts rs).2.2
            = Except.ok (rs.filterMap
                (fun r => if q._all_descendants then cgqrts r else qrts r)))) := by
  cases hl : q._limit_to_last with
  | true =>
    refine ⟨?_, ?_, ?_, ?_⟩
    · simp [AsyncQuery.stream, hl]
    · simp [AsyncQuery.stream, hl]
    · intro _
      simp [AsyncQuery.stream, hl]
    · intro hc
      exact Bool.noConfusion hc
  | false =>
    refine ⟨?_, ?_, ?_, ?_⟩
    · simp [AsyncQuery.stream, hl]
    · simp [AsyncQuery.stream, hl]
    · intro hc
      exact Bool.noConfusion hc
    · intro _
      constructor
      · simp [AsyncQuery.stream, hl]
      · simp [AsyncQuery.stream, hl, streamLoop_eq_filterMap]

/-- Witness for C10 at a concrete query and response list. -/
theorem c10_stream_raises_iff_limit_to_last_witness :
    ((AsyncQuery.mk [] true false).stream
        (fun n : Nat => some n) (fun n : Nat => some n) [3]).2.2
      = Except.error QueryError.valueError :=
  ((c10_stream_raises_iff_limit_to_last (AsyncQuery.mk [] true false)
      (fun n : Nat => some n) (fun n : Nat => some n) [3]).2.1).mpr rfl

end Firestore
